import Mathlib

set_option maxRecDepth 8000

/-! Verification development for pavuk300/KIS_2prac (src/main.py).

The verified core consists of the package-index parser `load_packages`
and the depth-bounded dependency-graph builder `make_graph` from
src/main.py. Python strings are modelled as `String`; Python dicts
(which preserve insertion order and update keys in place) are modelled
as association lists over `String`; Python sets of names are modelled
as duplicate-free lists in some iteration order (CPython iterates sets
in an unspecified order, so universally quantified theorems range over
every order and concrete theorems pick one explicit order). -/

/-- Package relation: dict mapping a package name to its set of
declared dependency names (src/main.py, load_packages). -/
abbrev PkgRel := List (String × List String)

/-- Dependency graph: dict mapping a package name to the set of its
included dependency names (src/main.py, make_graph). -/
abbrev DepGraph := List (String × List String)

/-- Membership test of a Python set or list of strings. -/
def listHas : List String → String → Bool
  | [], _ => false
  | y :: rest, x => y == x || listHas rest x

/-- Prefix test on character lists; models Python str.startswith and is
the building block of the substring test. -/
def isPrefixList : List Char → List Char → Bool
  | [], _ => true
  | _ :: _, [] => false
  | a :: as, b :: bs => a == b && isPrefixList as bs

/-- Substring test on character lists: does the needle occur
contiguously in the haystack? Models the Python operator `in` on
strings, which also makes the empty needle occur in every haystack. -/
def containsSub (needle : List Char) : List Char → Bool
  | [] => isPrefixList needle []
  | c :: rest => isPrefixList needle (c :: rest) || containsSub needle rest

/-- Python expression `needle in hay` on strings (substring test), as
used by the filter check `if filter not in dep` in make_graph. -/
def pyIn (needle hay : String) : Bool := containsSub needle.data hay.data

/-- Python expression `k in d` for a dict `d`. -/
def dictHasKey : DepGraph → String → Bool
  | [], _ => false
  | (k', _) :: rest, k => k' == k || dictHasKey rest k

/-- Python dict assignment `d[k] = v`: replaces the value of an
existing key in place, otherwise appends the new key at the end. -/
def dictSet : DepGraph → String → List String → DepGraph
  | [], k, v => [(k, v)]
  | (k', v') :: rest, k, v =>
    if k' == k then (k, v) :: rest else (k', v') :: dictSet rest k v

/-- Python expression `packages.get(name, set())`. -/
def relGet : PkgRel → String → List String
  | [], _ => []
  | (k', v) :: rest, k => if k' == k then v else relGet rest k

/-- Python statement `graph[k].add(t)` (set add on the value at an
existing key; a missing key leaves the dict unchanged, which never
happens inside make_graph because the key was created on entry). -/
def dictAddTo : DepGraph → String → String → DepGraph
  | [], _, _ => []
  | (k', v) :: rest, k, t =>
    if k' == k then (k', if listHas v t then v else v ++ [t]) :: rest
    else (k', v) :: dictAddTo rest k t

/-- Python statement `seen.add(x)` on a set of names. -/
def seenAdd (s : List String) (x : String) : List String :=
  if listHas s x then s else s ++ [x]

/-- Union of a set of names with a list of tokens, keeping set
semantics; models `packages[name] |= set(tokens)` value-side. -/
def setUnion (v toks : List String) : List String :=
  toks.foldl (fun acc t => if listHas acc t then acc else acc ++ [t]) v

/-- Python statement `packages[name] |= set(tokens)` (update of the
value stored at an existing key of the dict). -/
def dictUnion : PkgRel → String → List String → PkgRel
  | [], _, _ => []
  | (k', v) :: rest, k, toks =>
    if k' == k then (k', setUnion v toks) :: rest
    else (k', v) :: dictUnion rest k toks

/-- Helper for `pySplit`: accumulates the current token in reverse. -/
def splitWsAux : List Char → List Char → List String
  | [], cur => if cur.isEmpty then [] else [String.mk cur.reverse]
  | c :: rest, cur =>
    if c.isWhitespace then
      (if cur.isEmpty then [] else [String.mk cur.reverse]) ++ splitWsAux rest []
    else splitWsAux rest (c :: cur)

/-- Python `s.split()`: split on runs of whitespace, dropping empty
tokens. -/
def pySplit (s : String) : List String := splitWsAux s.data []

/-- Helper for `pyLines`: line splitter accumulating the current line
in reverse. -/
def splitNlAux : List Char → List Char → List String
  | [], cur => [String.mk cur.reverse]
  | c :: rest, cur =>
    if c == '\n' then String.mk cur.reverse :: splitNlAux rest []
    else splitNlAux rest (c :: cur)

/-- Python `text.split("\n")`: keeps empty lines, always nonempty. -/
def pyLines (s : String) : List String := splitNlAux s.data []

/-- Characters of the literal Pre-Depends field label. -/
def preDependsChars : List Char := ("Pre-Depends:").data

/-- Characters of the literal Depends field label. -/
def dependsChars : List Char := ("Depends:").data

/-- Characters of the literal architecture qualifier. -/
def anyChars : List Char := (":any").data

/-- Characters of the literal Package field label. -/
def packageLabelChars : List Char := ("Package:").data

/-- Greedy search used by the version-constraint alternative of the
regex in load_packages: among the non-comma characters `pre` standing
after an opening parenthesis, find the position of the last closing
parenthesis that leaves at least one character for the body, exactly
as the greedy backtracking regex fragment does. -/
def lastCloseIdx (pre : List Char) : Option Nat :=
  (List.range pre.length).foldl
    (fun acc j => if 1 ≤ j ∧ pre.getD j ' ' = ')' then some j else acc) none

/-- One attempted match, at the current position, of the regex
`(Pre-|)Depends:|:any|,|\||\([^,]+\)` from load_packages, trying the
alternatives in the order the regex engine does. Returns the number of
consumed characters minus one (so a match always consumes at least one
character). -/
def matchLen (cs : List Char) : Option Nat :=
  if isPrefixList preDependsChars cs then some 11
  else if isPrefixList dependsChars cs then some 7
  else if isPrefixList anyChars cs then some 3
  else
    match cs with
    | ',' :: _ => some 0
    | '|' :: _ => some 0
    | '(' :: rest =>
      match lastCloseIdx (rest.takeWhile (fun c => c != ',')) with
      | some j => some (j + 1)
      | none => none
    | _ => none

/-- Scanner of `re.sub(..., ' ', line)`: replace every leftmost
non-overlapping match with a single blank, otherwise copy the
character and advance. The fuel argument only serves totality; every
step consumes at least one character, so fuel equal to the length of
the input (as supplied by `subChars`) is never exhausted. -/
def subCharsF : Nat → List Char → List Char
  | 0, cs => cs
  | _ + 1, [] => []
  | fuel + 1, c :: rest =>
    match matchLen (c :: rest) with
    | some k => ' ' :: subCharsF fuel (rest.drop k)
    | none => c :: subCharsF fuel rest

/-- Python `re.sub(r'(Pre-|)Depends:|:any|,|\||\([^,]+\)', ' ', line)`
from load_packages. -/
def subChars (cs : List Char) : List Char := subCharsF cs.length cs

/-- Outcomes of load_packages on structurally bad input. The Python
function has no structured error of its own: a dependency field before
any Package line crashes with UnboundLocalError (the local `name` is
referenced before assignment), and a Package line without a second
token crashes with IndexError on `line.split()[1]`. -/
inductive LoadErr where
  | unboundLocal
  | indexErr
deriving DecidableEq, Repr

/-- Line loop of load_packages (src/main.py lines 138-147): the dict
of packages built so far plus the optional active package name are the
loop state. -/
def loadLoop : List String → PkgRel → Option String → Except LoadErr PkgRel
  | [], pkgs, _ => Except.ok pkgs
  | line :: rest, pkgs, active =>
    if isPrefixList packageLabelChars line.data then
      match (pySplit line).get? 1 with
      | some nm => loadLoop rest (dictSet pkgs nm []) (some nm)
      | none => Except.error LoadErr.indexErr
    else if isPrefixList preDependsChars line.data
         || isPrefixList dependsChars line.data then
      match active with
      | none => Except.error LoadErr.unboundLocal
      | some nm =>
        loadLoop rest (dictUnion pkgs nm (pySplit (String.mk (subChars line.data)))) active
    else
      loadLoop rest pkgs active

/-- load_packages from src/main.py: parse the package-index text into
the relation from package name to declared dependency names. -/
def load_packages (text : String) : Except LoadErr PkgRel :=
  loadLoop (pyLines text) [] none

/-- Traversal state of make_graph: the dependency graph and the set of
names that finished expansion (`graph` and `seen` in src/main.py). -/
structure BuildSt where
  graph : DepGraph
  seen : List String
deriving DecidableEq, Repr

/-- Second half of the loop body of dfs: after a possible recursive
expansion of dep, link dep into the dependency set of name exactly
when dep is in seen. -/
def linkStep (name dep : String) (s1 : BuildSt) : BuildSt :=
  if listHas s1.seen dep then ⟨dictAddTo s1.graph name dep, s1.seen⟩ else s1

/-- Body of the dependency loop inside dfs (src/main.py lines
154-159), for one dependency `dep` of `name`; `f` is the recursive
call at the decremented depth: if the filter occurs in dep, skip it
entirely; otherwise expand it when it is not yet a graph key, and then
run the link check of `linkStep`. -/
def dfsStep (fl : String) (f : String → BuildSt → BuildSt)
    (name dep : String) (st : BuildSt) : BuildSt :=
  if pyIn fl dep then st
  else linkStep name dep (if dictHasKey st.graph dep then st else f dep st)

/-- The dependency loop of dfs: left-to-right over the iteration order
of `packages.get(name, set())`. -/
def dfsLoop (fl : String) (f : String → BuildSt → BuildSt) (name : String) :
    List String → BuildSt → BuildSt
  | [], st => st
  | dep :: rest, st => dfsLoop fl f name rest (dfsStep fl f name dep st)

/-- The recursive dfs of make_graph (src/main.py lines 151-162),
restricted to the validated domain of nonnegative depths, on which the
Python truthiness test `if depth:` is exactly the zero test of this
Nat recursion: at depth zero return the state unchanged (no graph
entry, no seen mark); otherwise create an empty entry for name, run
the dependency loop with depth minus one, then mark name seen. -/
def dfs (rel : PkgRel) (fl : String) : Nat → String → BuildSt → BuildSt
  | 0, _, st => st
  | d + 1, name, st =>
    let st1 : BuildSt := ⟨dictSet st.graph name [], st.seen⟩
    let st2 := dfsLoop fl (fun dep s => dfs rel fl d dep s) name (relGet rel name) st1
    ⟨st2.graph, seenAdd st2.seen name⟩

/-- make_graph from src/main.py: fresh graph and seen set, one dfs
call on the root, return the graph. -/
def make_graph (root : String) (packages : PkgRel) (dep : Nat) (fl : String) : DepGraph :=
  (dfs packages fl dep root ⟨[], []⟩).graph

/-- The dfs of make_graph over the full Python int depth domain. The
Python test `if depth:` is false only at exactly zero, so a negative
depth is never exhausted. The extra fuel argument only serves
totality: every nested call is on a dependency that is not yet a graph
key and immediately becomes one, and only names carrying dependencies
in the relation can recurse further, so the nesting depth never
exceeds the number of relation entries plus one, which is the fuel
`make_graph_int` supplies. -/
def dfsInt (rel : PkgRel) (fl : String) : Nat → Int → String → BuildSt → BuildSt
  | 0, _, _, st => st
  | fuel + 1, depth, name, st =>
    if depth = 0 then st
    else
      let st1 : BuildSt := ⟨dictSet st.graph name [], st.seen⟩
      let st2 := dfsLoop fl (fun dep s => dfsInt rel fl fuel (depth - 1) dep s)
        name (relGet rel name) st1
      ⟨st2.graph, seenAdd st2.seen name⟩

/-- make_graph from src/main.py with its depth parameter modelled as a
Python int (possibly negative). -/
def make_graph_int (root : String) (packages : PkgRel) (dep : Int) (fl : String) : DepGraph :=
  (dfsInt packages fl (packages.length + 1) dep root ⟨[], []⟩).graph

/-- The max-depth validation of validate_args (src/main.py lines
100-103): a negative value is rejected with an error before make_graph
can ever run. -/
def maxDepthInvalid (d : Int) : Bool := decide (d < 0)

/-- Is there an edge from p to q in the graph, that is, is q a member
of the dependency set stored at key p? -/
def edgeMemB : DepGraph → String → String → Bool
  | [], _, _ => false
  | (k', v) :: rest, p, q => (k' == p && listHas v q) || edgeMemB rest p q

/-- The minimal package index of the specification. -/
def minIndexText : String :=
  "Package: foo\nDepends: bar (>= 1.0), baz\nPackage: bar\nDepends: baz:any\nPackage: baz"

/-- The relation parsed from the minimal package index. -/
def minRel : PkgRel := [("foo", ["bar", "baz"]), ("bar", ["baz"]), ("baz", [])]

/-- Index text whose first line is a dependency field, before any
Package line. -/
def orphanDependsText : String := "Depends: bar"

/-- Relation where A depends on B and B on nothing. -/
def abRel : PkgRel := [("A", ["B"]), ("B", [])]

/-- The two-element cyclic relation of the cycle-termination property:
A depends on B and B depends on A. -/
def cycRel : PkgRel := [("A", ["B"]), ("B", ["A"])]

/-- Small acyclic relation used for concrete witnesses: r depends on
a, a on nothing. -/
def wRel : PkgRel := [("r", ["a"]), ("a", [])]

/-- Relation refuting depth monotonicity (with filter not matching any
name and dependencies iterated left to right): R depends on A1 then M,
A1 on A2, A2 on M, M on K. At depth 3 the branch through A1 runs out
of budget before expanding M, so the direct branch expands M with
budget 2 and reaches K; at depth 4 the branch through A1 claims M
first with budget 1, K is cut off, and the direct branch finds M
already expanded. -/
def nmRel : PkgRel :=
  [("R", ["A1", "M"]), ("A1", ["A2"]), ("A2", ["M"]), ("M", ["K"]), ("K", [])]

/-- Between two traversal states: every graph key of the first is a
graph key of the second. -/
def KeysGrow (s s' : BuildSt) : Prop :=
  ∀ x, dictHasKey s.graph x = true → dictHasKey s'.graph x = true

/-- Between two traversal states: every seen name of the first is seen
in the second. -/
def SeenGrow (s s' : BuildSt) : Prop :=
  ∀ x, listHas s.seen x = true → listHas s'.seen x = true

/-- Between two traversal states: a name seen in the second was
already seen in the first or was not yet a graph key of the first
(names already expanded are never marked seen by a later call). -/
def SeenNew (s s' : BuildSt) : Prop :=
  ∀ x, listHas s'.seen x = true →
    listHas s.seen x = true ∨ dictHasKey s.graph x = false

/-- State invariant of the traversal: every seen name is a graph key,
and every edge target in the graph is a seen name. -/
def InvOK (s : BuildSt) : Prop :=
  (∀ x, listHas s.seen x = true → dictHasKey s.graph x = true) ∧
  (∀ p q, edgeMemB s.graph p q = true → listHas s.seen q = true)

/-- A graph without self-edges. -/
def NoSelfEdge (g : DepGraph) : Prop := ∀ p, edgeMemB g p p = false

/-- Growth and locality properties of one recursive expansion step,
assumed of the recursive call when proving them of the loop. -/
def StepBasic (f : String → BuildSt → BuildSt) : Prop :=
  ∀ dep st, dictHasKey st.graph dep = false →
    KeysGrow st (f dep st) ∧ SeenGrow st (f dep st) ∧ SeenNew st (f dep st)

/-- Invariant preservation of one recursive expansion step. -/
def StepInv (f : String → BuildSt → BuildSt) : Prop :=
  ∀ dep st, dictHasKey st.graph dep = false → InvOK st →
    InvOK (f dep st) ∧ (NoSelfEdge st.graph → NoSelfEdge (f dep st).graph)

theorem listHas_append (a b : List String) (x : String) :
    listHas (a ++ b) x = (listHas a x || listHas b x) := by
  induction a with
  | nil => simp [listHas]
  | cons y rest ih => simp [listHas, ih, Bool.or_assoc]

theorem listHas_seenAdd (s : List String) (a x : String) :
    listHas (seenAdd s a) x = true ↔ listHas s x = true ∨ x = a := by
  unfold seenAdd
  by_cases h : listHas s a = true
  · simp [h]
    rintro rfl
    exact h
  · simp [h, listHas_append, listHas]
    constructor
    · rintro (hx | hx)
      · exact Or.inl hx
      · exact Or.inr hx.symm
    · rintro (hx | rfl)
      · exact Or.inl hx
      · exact Or.inr rfl

theorem hasKey_dictSet (g : DepGraph) (k : String) (v : List String) (x : String) :
    dictHasKey (dictSet g k v) x = true ↔ k = x ∨ dictHasKey g x = true := by
  induction g with
  | nil => simp [dictSet, dictHasKey, beq_iff_eq]
  | cons p rest ih =>
    obtain ⟨k', v'⟩ := p
    by_cases h : k' = k
    · subst h
      simp [dictSet, dictHasKey, beq_iff_eq]
    · simp [dictSet, beq_iff_eq, h, dictHasKey, ih]
      tauto

theorem hasKey_dictAddTo (g : DepGraph) (k t x : String) :
    dictHasKey (dictAddTo g k t) x = dictHasKey g x := by
  induction g with
  | nil => simp [dictAddTo]
  | cons p rest ih =>
    obtain ⟨k', v⟩ := p
    by_cases h : k' = k
    · subst h
      simp [dictAddTo, dictHasKey]
    · simp [dictAddTo, beq_iff_eq, h, dictHasKey, ih]

theorem edge_dictSet_nil (g : DepGraph) (k p q : String) :
    edgeMemB (dictSet g k []) p q = true → edgeMemB g p q = true := by
  induction g with
  | nil => simp [dictSet, edgeMemB, listHas]
  | cons pr rest ih =>
    obtain ⟨k', v⟩ := pr
    by_cases h : k' = k
    · subst h
      simp [dictSet, edgeMemB, listHas]
      intro hr
      exact Or.inr hr
    · simp [dictSet, beq_iff_eq, h, edgeMemB]
      rintro (hl | hr)
      · exact Or.inl hl
      · exact Or.inr (ih hr)

theorem edge_dictAddTo_sub (g : DepGraph) (k t p q : String) :
    edgeMemB (dictAddTo g k t) p q = true →
    edgeMemB g p q = true ∨ (p = k ∧ q = t) := by
  induction g with
  | nil => simp [dictAddTo, edgeMemB]
  | cons pr rest ih =>
    obtain ⟨k', v⟩ := pr
    by_cases h : k' = k
    · subst h
      by_cases hv : listHas v t = true
      · simp [dictAddTo, hv, edgeMemB]
        tauto
      · simp [dictAddTo, hv, edgeMemB, listHas_append, listHas, beq_iff_eq]
        rintro (⟨hp, hq | hq⟩ | hr)
        · exact Or.inl (Or.inl ⟨hp, hq⟩)
        · exact Or.inr ⟨hp.symm, hq.symm⟩
        · exact Or.inl (Or.inr hr)
    · simp [dictAddTo, beq_iff_eq, h, edgeMemB]
      rintro (hl | hr)
      · exact Or.inl (Or.inl hl)
      · rcases ih hr with h1 | h2
        · exact Or.inl (Or.inr h1)
        · exact Or.inr h2

theorem edge_dictAddTo_mono (g : DepGraph) (k t p q : String)
    (h : edgeMemB g p q = true) : edgeMemB (dictAddTo g k t) p q = true := by
  induction g with
  | nil => simp [edgeMemB] at h
  | cons pr rest ih =>
    obtain ⟨k', v⟩ := pr
    by_cases hk : k' = k
    · subst hk
      by_cases hv : listHas v t = true
      · simpa [dictAddTo, hv, edgeMemB] using h
      · simp [edgeMemB] at h
        rcases h with ⟨hp, hq⟩ | hr
        · simp [dictAddTo, hv, edgeMemB, listHas_append, hp, hq]
        · simp [dictAddTo, hv, edgeMemB, hr]
    · simp [edgeMemB] at h
      rcases h with ⟨hp, hq⟩ | hr
      · subst hp
        simp [dictAddTo, beq_iff_eq, hk, edgeMemB, hq]
      · simp [dictAddTo, beq_iff_eq, hk, edgeMemB, ih hr]

theorem keysGrow_refl (a : BuildSt) : KeysGrow a a := fun _ h => h

theorem keysGrow_trans {a b c : BuildSt} (h1 : KeysGrow a b) (h2 : KeysGrow b c) :
    KeysGrow a c := fun x hx => h2 x (h1 x hx)

theorem seenGrow_refl (a : BuildSt) : SeenGrow a a := fun _ h => h

theorem seenGrow_trans {a b c : BuildSt} (h1 : SeenGrow a b) (h2 : SeenGrow b c) :
    SeenGrow a c := fun x hx => h2 x (h1 x hx)

theorem seenNew_refl (a : BuildSt) : SeenNew a a := fun _ h => Or.inl h

theorem seenNew_trans {a b c : BuildSt} (hk : KeysGrow a b)
    (h1 : SeenNew a b) (h2 : SeenNew b c) : SeenNew a c := by
  intro x hx
  rcases h2 x hx with h | h
  · exact h1 x h
  · cases hax : dictHasKey a.graph x with
    | false => exact Or.inr rfl
    | true => rw [hk x hax] at h; cases h

theorem linkStep_graph_keys (name dep : String) (s1 : BuildSt) (x : String) :
    dictHasKey (linkStep name dep s1).graph x = dictHasKey s1.graph x := by
  unfold linkStep
  by_cases h : listHas s1.seen dep = true
  · simp [h, hasKey_dictAddTo]
  · simp [h]

theorem linkStep_seen (name dep : String) (s1 : BuildSt) :
    (linkStep name dep s1).seen = s1.seen := by
  unfold linkStep
  by_cases h : listHas s1.seen dep = true
  · simp [h]
  · simp [h]

theorem linkStep_edge_sub (name dep : String) (s1 : BuildSt) (p q : String)
    (h : edgeMemB (linkStep name dep s1).graph p q = true) :
    edgeMemB s1.graph p q = true ∨ (p = name ∧ q = dep ∧ listHas s1.seen dep = true) := by
  unfold linkStep at h
  by_cases hs : listHas s1.seen dep = true
  · simp [hs] at h
    rcases edge_dictAddTo_sub s1.graph name dep p q h with h1 | h2
    · exact Or.inl h1
    · exact Or.inr ⟨h2.1, h2.2, hs⟩
  · simp [hs] at h
    exact Or.inl h

theorem linkStep_inv (name dep : String) (s1 : BuildSt) (h : InvOK s1) :
    InvOK (linkStep name dep s1) := by
  obtain ⟨hsk, hev⟩ := h
  constructor
  · intro x hx
    rw [linkStep_seen] at hx
    rw [linkStep_graph_keys]
    exact hsk x hx
  · intro p q hpq
    rw [linkStep_seen]
    rcases linkStep_edge_sub name dep s1 p q hpq with h1 | ⟨_, rfl, hs⟩
    · exact hev p q h1
    · exact hs

theorem linkStep_nse (name dep : String) (s1 : BuildSt)
    (h : NoSelfEdge s1.graph) (hname : listHas s1.seen name = false) :
    NoSelfEdge (linkStep name dep s1).graph := by
  intro p
  cases he : edgeMemB (linkStep name dep s1).graph p p with
  | false => rfl
  | true =>
    rcases linkStep_edge_sub name dep s1 p p he with h1 | ⟨rfl, rfl, hs⟩
    · rw [h p] at h1; cases h1
    · rw [hname] at hs; cases hs

theorem dfsStep_basic (fl : String) (f : String → BuildSt → BuildSt)
    (hb : StepBasic f) (name dep : String) (st : BuildSt) :
    KeysGrow st (dfsStep fl f name dep st) ∧ SeenGrow st (dfsStep fl f name dep st) ∧
    SeenNew st (dfsStep fl f name dep st) := by
  unfold dfsStep
  by_cases hfl : pyIn fl dep = true
  · simp [hfl]
    exact ⟨keysGrow_refl st, seenGrow_refl st, seenNew_refl st⟩
  · simp [hfl]
    by_cases hk : dictHasKey st.graph dep = true
    · simp [hk]
      refine ⟨?_, ?_, ?_⟩
      · intro x hx; rw [linkStep_graph_keys]; exact hx
      · intro x hx; rw [linkStep_seen]; exact hx
      · intro x hx; rw [linkStep_seen] at hx; exact Or.inl hx
    · simp [hk]
      obtain ⟨k1, s1g, n1⟩ := hb dep st (by simpa using hk)
      refine ⟨?_, ?_, ?_⟩
      · intro x hx; rw [linkStep_graph_keys]; exact k1 x hx
      · intro x hx; rw [linkStep_seen]; exact s1g x hx
      · intro x hx; rw [linkStep_seen] at hx; exact n1 x hx

theorem dfsStep_inv (fl : String) (f : String → BuildSt → BuildSt)
    (hb : StepBasic f) (hi : StepInv f) (name dep : String) (st : BuildSt)
    (hinv : InvOK st) (hkey : dictHasKey st.graph name = true) :
    InvOK (dfsStep fl f name dep st) ∧
    (NoSelfEdge st.graph → listHas st.seen name = false →
      NoSelfEdge (dfsStep fl f name dep st).graph ∧
      listHas (dfsStep fl f name dep st).seen name = false) := by
  unfold dfsStep
  by_cases hfl : pyIn fl dep = true
  · simp [hfl]
    exact ⟨hinv, fun hn hs => ⟨hn, hs⟩⟩
  · simp [hfl]
    by_cases hk : dictHasKey st.graph dep = true
    · simp [hk]
      refine ⟨linkStep_inv name dep st hinv, fun hn hs => ⟨linkStep_nse name dep st hn hs, ?_⟩⟩
      rw [linkStep_seen]
      exact hs
    · simp [hk]
      have hkf : dictHasKey st.graph dep = false := by simpa using hk
      obtain ⟨inv1, nse1⟩ := hi dep st hkf hinv
      obtain ⟨k1, s1g, n1⟩ := hb dep st hkf
      refine ⟨linkStep_inv name dep (f dep st) inv1, fun hn hs => ?_⟩
      have hfs : listHas (f dep st).seen name = false := by
        cases hfn : listHas (f dep st).seen name with
        | false => rfl
        | true =>
          rcases n1 name hfn with h1 | h1
          · rw [hs] at h1; simp at h1
          · rw [hkey] at h1; simp at h1
      refine ⟨linkStep_nse name dep (f dep st) (nse1 hn) hfs, ?_⟩
      rw [linkStep_seen]
      exact hfs

theorem hasKey_dictSet_mono (g : DepGraph) (k : String) (v : List String) (x : String)
    (h : dictHasKey g x = true) : dictHasKey (dictSet g k v) x = true :=
  (hasKey_dictSet g k v x).mpr (Or.inr h)

theorem hasKey_dictSet_self (g : DepGraph) (k : String) (v : List String) :
    dictHasKey (dictSet g k v) k = true :=
  (hasKey_dictSet g k v k).mpr (Or.inl rfl)

theorem hasKey_dictSet_not (g : DepGraph) (k : String) (v : List String) (x : String)
    (h : dictHasKey (dictSet g k v) x = false) : dictHasKey g x = false := by
  cases hax : dictHasKey g x with
  | false => rfl
  | true =>
    rw [hasKey_dictSet_mono g k v x hax] at h
    simp at h

theorem dfs_zero (rel : PkgRel) (fl : String) (dep : String) (s : BuildSt) :
    dfs rel fl 0 dep s = s := rfl

theorem dfs_succ (rel : PkgRel) (fl : String) (d : Nat) (name : String) (st : BuildSt) :
    dfs rel fl (d + 1) name st =
      ⟨(dfsLoop fl (fun dep s => dfs rel fl d dep s) name (relGet rel name)
          ⟨dictSet st.graph name [], st.seen⟩).graph,
        seenAdd (dfsLoop fl (fun dep s => dfs rel fl d dep s) name (relGet rel name)
          ⟨dictSet st.graph name [], st.seen⟩).seen name⟩ := rfl

theorem dfsLoop_basic (fl : String) (f : String → BuildSt → BuildSt)
    (hb : StepBasic f) (name : String) :
    ∀ (deps : List String) (st : BuildSt),
      KeysGrow st (dfsLoop fl f name deps st) ∧
      SeenGrow st (dfsLoop fl f name deps st) ∧
      SeenNew st (dfsLoop fl f name deps st) := by
  intro deps
  induction deps with
  | nil =>
    intro st
    exact ⟨keysGrow_refl st, seenGrow_refl st, seenNew_refl st⟩
  | cons dep rest ih =>
    intro st
    obtain ⟨k1, s1, n1⟩ := dfsStep_basic fl f hb name dep st
    obtain ⟨k2, s2, n2⟩ := ih (dfsStep fl f name dep st)
    exact ⟨keysGrow_trans k1 k2, seenGrow_trans s1 s2, seenNew_trans k1 n1 n2⟩

theorem dfsLoop_inv (fl : String) (f : String → BuildSt → BuildSt)
    (hb : StepBasic f) (hi : StepInv f) (name : String) :
    ∀ (deps : List String) (st : BuildSt),
      InvOK st → dictHasKey st.graph name = true →
      InvOK (dfsLoop fl f name deps st) ∧
      (NoSelfEdge st.graph → listHas st.seen name = false →
        NoSelfEdge (dfsLoop fl f name deps st).graph ∧
        listHas (dfsLoop fl f name deps st).seen name = false) := by
  intro deps
  induction deps with
  | nil =>
    intro st hinv _
    exact ⟨hinv, fun hn hs => ⟨hn, hs⟩⟩
  | cons dep rest ih =>
    intro st hinv hkey
    obtain ⟨inv1, nse1⟩ := dfsStep_inv fl f hb hi name dep st hinv hkey
    obtain ⟨k1, _, _⟩ := dfsStep_basic fl f hb name dep st
    obtain ⟨inv2, nse2⟩ := ih (dfsStep fl f name dep st) inv1 (k1 name hkey)
    refine ⟨inv2, fun hn hs => ?_⟩
    obtain ⟨hn1, hs1⟩ := nse1 hn hs
    exact nse2 hn1 hs1

theorem dfs_basic (rel : PkgRel) (fl : String) :
    ∀ d : Nat, StepBasic (fun dep s => dfs rel fl d dep s) := by
  intro d
  induction d with
  | zero =>
    intro dep st _
    exact ⟨keysGrow_refl st, seenGrow_refl st, seenNew_refl st⟩
  | succ d ih =>
    intro dep st hk
    obtain ⟨k2, s2, n2⟩ := dfsLoop_basic fl (fun dp s => dfs rel fl d dp s) ih dep
      (relGet rel dep) ⟨dictSet st.graph dep [], st.seen⟩
    simp only [dfs_succ]
    refine ⟨?_, ?_, ?_⟩
    · intro x hx
      exact k2 x (hasKey_dictSet_mono st.graph dep [] x hx)
    · intro x hx
      exact (listHas_seenAdd _ dep x).mpr (Or.inl (s2 x hx))
    · intro x hx
      rcases (listHas_seenAdd _ dep x).mp hx with h1 | rfl
      · rcases n2 x h1 with h2 | h2
        · exact Or.inl h2
        · exact Or.inr (hasKey_dictSet_not st.graph dep [] x h2)
      · exact Or.inr hk

theorem dfs_inv (rel : PkgRel) (fl : String) :
    ∀ d : Nat, StepInv (fun dep s => dfs rel fl d dep s) := by
  intro d
  induction d with
  | zero =>
    intro dep st _ hinv
    exact ⟨hinv, fun hn => hn⟩
  | succ d ih =>
    intro dep st hk hinv
    have hinv1 : InvOK (⟨dictSet st.graph dep [], st.seen⟩ : BuildSt) := by
      constructor
      · intro x hx
        exact hasKey_dictSet_mono st.graph dep [] x (hinv.1 x hx)
      · intro p q hpq
        exact hinv.2 p q (edge_dictSet_nil st.graph dep p q hpq)
    have hkey1 : dictHasKey (dictSet st.graph dep []) dep = true :=
      hasKey_dictSet_self st.graph dep []
    obtain ⟨inv2, nse2⟩ := dfsLoop_inv fl (fun dp s => dfs rel fl d dp s)
      (dfs_basic rel fl d) ih dep (relGet rel dep)
      ⟨dictSet st.graph dep [], st.seen⟩ hinv1 hkey1
    obtain ⟨k2, _, _⟩ := dfsLoop_basic fl (fun dp s => dfs rel fl d dp s)
      (dfs_basic rel fl d) dep (relGet rel dep) ⟨dictSet st.graph dep [], st.seen⟩
    simp only [dfs_succ]
    constructor
    · constructor
      · intro x hx
        rcases (listHas_seenAdd _ dep x).mp hx with h1 | rfl
        · exact inv2.1 x h1
        · exact k2 x hkey1
      · intro p q hpq
        exact (listHas_seenAdd _ dep q).mpr (Or.inl (inv2.2 p q hpq))
    · intro hn
      have hn1 : NoSelfEdge (dictSet st.graph dep []) := by
        intro p
        cases he : edgeMemB (dictSet st.graph dep []) p p with
        | false => rfl
        | true =>
          have hold := edge_dictSet_nil st.graph dep p p he
          rw [hn p] at hold
          simp at hold
      have hsd : listHas st.seen dep = false := by
        cases hsx : listHas st.seen dep with
        | false => rfl
        | true =>
          rw [hinv.1 dep hsx] at hk
          simp at hk
      obtain ⟨hn2, _⟩ := nse2 hn1 hsd
      exact hn2

theorem make_graph_state (root : String) (rel : PkgRel) (d : Nat) (fl : String) :
    InvOK (dfs rel fl d root ⟨[], []⟩) ∧ NoSelfEdge (make_graph root rel d fl) := by
  have h0 : InvOK (⟨[], []⟩ : BuildSt) := by
    constructor
    · intro x hx
      simp [listHas] at hx
    · intro p q hpq
      simp [edgeMemB] at hpq
  obtain ⟨hinv, hnse⟩ := dfs_inv rel fl d root ⟨[], []⟩ rfl h0
  exact ⟨hinv, hnse (fun p => rfl)⟩

theorem dfsLoop_nil (fl : String) (f : String → BuildSt → BuildSt) (name : String)
    (st : BuildSt) : dfsLoop fl f name [] st = st := rfl

theorem dfsLoop_cons (fl : String) (f : String → BuildSt → BuildSt) (name dep : String)
    (rest : List String) (st : BuildSt) :
    dfsLoop fl f name (dep :: rest) st = dfsLoop fl f name rest (dfsStep fl f name dep st) := rfl

theorem pyIn_empty (s : String) : pyIn ("") s = true := by
  unfold pyIn
  rw [show (("" : String)).data = [] from rfl]
  cases s.data with
  | nil => rfl
  | cons c rest => simp [containsSub, isPrefixList]

theorem dfsStep_empty_filter (f : String → BuildSt → BuildSt) (name dep : String)
    (st : BuildSt) : dfsStep ("") f name dep st = st := by
  unfold dfsStep
  rw [if_pos (pyIn_empty dep)]

theorem dfsLoop_empty_filter (f : String → BuildSt → BuildSt) (name : String) :
    ∀ (deps : List String) (st : BuildSt), dfsLoop ("") f name deps st = st := by
  intro deps
  induction deps with
  | nil => intro st; rfl
  | cons dep rest ih =>
    intro st
    rw [dfsLoop_cons, dfsStep_empty_filter]
    exact ih st

theorem make_graph_zero (root : String) (rel : PkgRel) (fl : String) :
    make_graph root rel 0 fl = [] := rfl

theorem make_graph_empty_filter (root : String) (rel : PkgRel) (k : Nat) :
    make_graph root rel (k + 1) ("") = [(root, [])] := by
  unfold make_graph
  rw [dfs_succ, dfsLoop_empty_filter]
  rfl

theorem dfsStep_zero_f (rel : PkgRel) (fl name dep : String) (st : BuildSt) :
    dfsStep fl (fun dp s => dfs rel fl 0 dp s) name dep st =
      if pyIn fl dep = true then st else linkStep name dep st := by
  unfold dfsStep
  by_cases h : pyIn fl dep = true
  · rw [if_pos h, if_pos h]
  · rw [if_neg h, if_neg h]
    simp only [dfs_zero, ite_self]

theorem dfsLoop_zero_keys_seen (rel : PkgRel) (fl name : String) :
    ∀ (deps : List String) (st : BuildSt),
      (∀ x, dictHasKey (dfsLoop fl (fun dp s => dfs rel fl 0 dp s) name deps st).graph x
        = dictHasKey st.graph x) ∧
      (dfsLoop fl (fun dp s => dfs rel fl 0 dp s) name deps st).seen = st.seen := by
  intro deps
  induction deps with
  | nil => intro st; exact ⟨fun x => rfl, rfl⟩
  | cons dep rest ih =>
    intro st
    obtain ⟨ihk, ihs⟩ := ih (dfsStep fl (fun dp s => dfs rel fl 0 dp s) name dep st)
    rw [dfsLoop_cons]
    constructor
    · intro x
      rw [ihk x, dfsStep_zero_f]
      by_cases h : pyIn fl dep = true
      · rw [if_pos h]
      · rw [if_neg h, linkStep_graph_keys]
    · rw [ihs, dfsStep_zero_f]
      by_cases h : pyIn fl dep = true
      · rw [if_pos h]
      · rw [if_neg h, linkStep_seen]

theorem dfsLoop_zero_emptyseen (rel : PkgRel) (fl name : String) :
    ∀ (deps : List String) (st : BuildSt), st.seen = [] →
      dfsLoop fl (fun dp s => dfs rel fl 0 dp s) name deps st = st := by
  intro deps
  induction deps with
  | nil => intro st _; rfl
  | cons dep rest ih =>
    intro st hseen
    rw [dfsLoop_cons, dfsStep_zero_f]
    by_cases h : pyIn fl dep = true
    · rw [if_pos h]
      exact ih st hseen
    · rw [if_neg h]
      have hl : linkStep name dep st = st := by
        unfold linkStep
        rw [hseen]
        rfl
      rw [hl]
      exact ih st hseen

theorem make_graph_one (root : String) (rel : PkgRel) (fl : String) :
    make_graph root rel 1 fl = [(root, [])] := by
  unfold make_graph
  rw [show (1 : Nat) = 0 + 1 from rfl, dfs_succ, dfsLoop_zero_emptyseen rel fl root _ _ rfl]
  rfl

theorem dfs_one_keys (rel : PkgRel) (fl : String) (dep : String) (s : BuildSt) (x : String) :
    dictHasKey (dfs rel fl 1 dep s).graph x = dictHasKey (dictSet s.graph dep []) x := by
  rw [show (1 : Nat) = 0 + 1 from rfl, dfs_succ]
  exact (dfsLoop_zero_keys_seen rel fl dep (relGet rel dep) ⟨dictSet s.graph dep [], s.seen⟩).1 x

theorem dfsStep_keys_sub (fl : String) (f : String → BuildSt → BuildSt)
    (name dep : String) (st : BuildSt) (x : String)
    (hf : dictHasKey (f dep st).graph x = true → dictHasKey st.graph x = true ∨ x = dep)
    (h : dictHasKey (dfsStep fl f name dep st).graph x = true) :
    dictHasKey st.graph x = true ∨ (x = dep ∧ pyIn fl dep = false) := by
  unfold dfsStep at h
  by_cases hp : pyIn fl dep = true
  · rw [if_pos hp] at h
    exact Or.inl h
  · rw [if_neg hp, linkStep_graph_keys] at h
    by_cases hk : dictHasKey st.graph dep = true
    · rw [if_pos hk] at h
      exact Or.inl h
    · rw [if_neg hk] at h
      rcases hf h with h1 | h1
      · exact Or.inl h1
      · exact Or.inr ⟨h1, by simpa using hp⟩

theorem dfsLoop_one_keys_sub (rel : PkgRel) (fl name : String) :
    ∀ (deps : List String) (st : BuildSt) (x : String),
      dictHasKey (dfsLoop fl (fun dp s => dfs rel fl 1 dp s) name deps st).graph x = true →
      dictHasKey st.graph x = true ∨ (x ∈ deps ∧ pyIn fl x = false) := by
  intro deps
  induction deps with
  | nil => intro st x h; exact Or.inl h
  | cons dep rest ih =>
    intro st x h
    rw [dfsLoop_cons] at h
    rcases ih (dfsStep fl (fun dp s => dfs rel fl 1 dp s) name dep st) x h with h1 | ⟨hmem, hfl⟩
    · have hf : dictHasKey (dfs rel fl 1 dep st).graph x = true →
          dictHasKey st.graph x = true ∨ x = dep := by
        intro hx
        rw [dfs_one_keys] at hx
        rcases (hasKey_dictSet st.graph dep [] x).mp hx with h2 | h2
        · exact Or.inr h2.symm
        · exact Or.inl h2
      rcases dfsStep_keys_sub fl (fun dp s => dfs rel fl 1 dp s) name dep st x hf h1 with h2 | ⟨hxd, hp⟩
      · exact Or.inl h2
      · refine Or.inr ⟨?_, ?_⟩
        · rw [hxd]; exact List.mem_cons_self dep rest
        · rw [hxd]; exact hp
    · exact Or.inr ⟨List.mem_cons_of_mem dep hmem, hfl⟩

theorem make_graph_two_keys (root : String) (rel : PkgRel) (fl : String) (x : String)
    (h : dictHasKey (make_graph root rel 2 fl) x = true) :
    x = root ∨ (x ∈ relGet rel root ∧ pyIn fl x = false) := by
  unfold make_graph at h
  rw [show (2 : Nat) = 1 + 1 from rfl, dfs_succ] at h
  rcases dfsLoop_one_keys_sub rel fl root (relGet rel root)
      ⟨dictSet [] root [], []⟩ x h with h1 | h2
  · left
    have : dictHasKey [(root, [])] x = true := h1
    simp [dictHasKey, beq_iff_eq] at this
    exact this.symm
  · exact Or.inr h2

theorem dfs_succ_key (rel : PkgRel) (fl : String) (d : Nat) (dep : String) (s : BuildSt) :
    dictHasKey (dfs rel fl (d + 1) dep s).graph dep = true := by
  rw [dfs_succ]
  obtain ⟨k2, _, _⟩ := dfsLoop_basic fl (fun dp s2 => dfs rel fl d dp s2)
    (dfs_basic rel fl d) dep (relGet rel dep) ⟨dictSet s.graph dep [], s.seen⟩
  exact k2 dep (hasKey_dictSet_self s.graph dep [])

theorem dfsLoop_expands (fl : String) (f : String → BuildSt → BuildSt)
    (hb : StepBasic f)
    (hmk : ∀ dp s, dictHasKey s.graph dp = false → dictHasKey (f dp s).graph dp = true)
    (name : String) :
    ∀ (deps : List String) (st : BuildSt) (dep : String),
      dep ∈ deps → pyIn fl dep = false →
      dictHasKey (dfsLoop fl f name deps st).graph dep = true := by
  intro deps
  induction deps with
  | nil => intro st dep h _; cases h
  | cons d0 rest ih =>
    intro st dep hmem hp
    rw [dfsLoop_cons]
    rcases List.mem_cons.mp hmem with h | hmem'
    · obtain ⟨k2, _, _⟩ := dfsLoop_basic fl f hb name rest (dfsStep fl f name d0 st)
      subst h
      apply k2
      unfold dfsStep
      rw [if_neg (by simp [hp])]
      rw [linkStep_graph_keys]
      by_cases hk : dictHasKey st.graph dep = true
      · rw [if_pos hk]
        exact hk
      · rw [if_neg hk]
        exact hmk dep st (by simpa using hk)
    · exact ih (dfsStep fl f name d0 st) dep hmem' hp

theorem make_graph_three_sup (root : String) (rel : PkgRel) (fl : String) (x : String)
    (h : x = root ∨ (x ∈ relGet rel root ∧ pyIn fl x = false)) :
    dictHasKey (make_graph root rel 3 fl) x = true := by
  unfold make_graph
  rw [show (3 : Nat) = 2 + 1 from rfl, dfs_succ]
  rcases h with rfl | ⟨hmem, hp⟩
  · obtain ⟨k2, _, _⟩ := dfsLoop_basic fl (fun dp s => dfs rel fl 2 dp s)
      (dfs_basic rel fl 2) x (relGet rel x) ⟨dictSet [] x [], []⟩
    exact k2 x (hasKey_dictSet_self [] x [])
  · exact dfsLoop_expands fl (fun dp s => dfs rel fl 2 dp s) (dfs_basic rel fl 2)
      (fun dp s _ => dfs_succ_key rel fl 1 dp s) root (relGet rel root)
      ⟨dictSet [] root [], []⟩ x hmem hp

theorem make_graph_root_key (root : String) (rel : PkgRel) (d : Nat) (fl : String) :
    dictHasKey (make_graph root rel (d + 1) fl) root = true :=
  dfs_succ_key rel fl d root ⟨[], []⟩

/-- C1: the specification states that with an empty filterSubstr no
dependency is skipped, so build of foo over the minimal index at depth
5 returns the full three-entry graph. The code disagrees: its filter
test `if filter not in dep` skips dep whenever the filter occurs in
dep as a substring, and the empty string occurs in every name, so
every dependency is skipped and only the root entry is produced. This
theorem evaluates the embedded code at the failing input. -/
theorem C1_empty_filter_eval :
    make_graph ("foo") minRel 5 ("") = [("foo", [])] :=
  make_graph_empty_filter ("foo") minRel 4

/-- C2: for every relation and root, at any positive depth with the
empty filter, build returns exactly the single-entry graph mapping the
root to the empty set: the filter test treats the empty string as
contained in every dependency name, so every dependency is skipped. -/
theorem C2_empty_filter_root_only (root : String) (rel : PkgRel) (d : Nat)
    (hd : 1 ≤ d) : make_graph root rel d ("") = [(root, [])] := by
  obtain ⟨k, rfl⟩ : ∃ k, d = k + 1 := ⟨d - 1, by omega⟩
  exact make_graph_empty_filter root rel k

/-- C2 witness at a concrete input. -/
theorem C2_witness :
    1 ≤ 3 ∧ make_graph ("foo") minRel 3 ("") = [("foo", [])] :=
  ⟨by decide, C2_empty_filter_root_only ("foo") minRel 3 (by decide)⟩

/-- C3: on input whose dependency field line precedes any Package
line, the code crashes on the missing active-name reference (a Python
UnboundLocalError when packages[name] is evaluated) instead of failing
with a structured ParseError; the embedding records exactly that crash
outcome. -/
theorem C3_orphan_depends_crash :
    load_packages orphanDependsText = Except.error LoadErr.unboundLocal := rfl

/-- C4 counterexample: calling build with a negative maxDepth does not
behave as maxDepth zero; on the relation where A depends on B, depth
minus one yields a different (non-empty) graph than depth zero. -/
theorem C4_neg_depth_counterexample :
    make_graph_int ("A") abRel (-1) ("zz") ≠ make_graph_int ("A") abRel 0 ("zz") := by
  decide

/-- C4 amended: a negative maxDepth is rejected by the input
validation of validate_args before build can run; make_graph itself
does not clamp a negative depth to zero: its truthiness test fails
only at exactly zero, so a negative depth acts as an unexhausted
budget and the traversal of the relation where A depends on B returns
the full two-entry graph rather than the empty one. -/
theorem C4_neg_depth_amended :
    (∀ d : Int, d < 0 → maxDepthInvalid d = true) ∧
    make_graph_int ("A") abRel (-1) ("zz") = [("A", ["B"]), ("B", [])] := by
  constructor
  · intro d hd
    exact decide_eq_true hd
  · decide

/-- C4 witness. -/
theorem C4_witness :
    maxDepthInvalid (-1) = true ∧
    make_graph_int ("A") abRel (-1) ("zz") = [("A", ["B"]), ("B", [])] :=
  ⟨C4_neg_depth_amended.1 (-1) (by decide), C4_neg_depth_amended.2⟩

/-- C5 counterexample: depth monotonicity of the key set fails on the
code; over nmRel with a filter matching nothing, K is a key of the
depth 3 graph but not of the depth 4 graph. -/
theorem C5_depth_monotonicity_counterexample :
    dictHasKey (make_graph ("R") nmRel 3 ("zz")) ("K") = true ∧
    dictHasKey (make_graph ("R") nmRel 4 ("zz")) ("K") = false := by
  decide

/-- C5 amended: the key-set inclusion from depth d to depth d plus one
holds for every root, relation, and filter at the bottom depths d = 0,
1 and 2, but fails in general from d = 3 on (see the
counterexample). -/
theorem C5_depth_monotonicity_amended (root : String) (rel : PkgRel) (fl : String)
    (x : String) :
    (dictHasKey (make_graph root rel 0 fl) x = true →
      dictHasKey (make_graph root rel 1 fl) x = true) ∧
    (dictHasKey (make_graph root rel 1 fl) x = true →
      dictHasKey (make_graph root rel 2 fl) x = true) ∧
    (dictHasKey (make_graph root rel 2 fl) x = true →
      dictHasKey (make_graph root rel 3 fl) x = true) := by
  refine ⟨?_, ?_, ?_⟩
  · intro h
    rw [make_graph_zero] at h
    simp [dictHasKey] at h
  · intro h
    rw [make_graph_one] at h
    have hx : root = x := by simpa [dictHasKey, beq_iff_eq] using h
    subst hx
    exact make_graph_root_key root rel 1 fl
  · intro h
    exact make_graph_three_sup root rel fl x (make_graph_two_keys root rel fl x h)

/-- C5 witness: one of the surviving low-depth inclusions applied at a
concrete input. -/
theorem C5_witness :
    dictHasKey (make_graph ("r") wRel 2 ("zz")) ("r") = true :=
  (C5_depth_monotonicity_amended ("r") wRel ("zz") ("r")).2.1 (by decide)

/-- C6: with a zero depth budget the builder returns an entirely empty
graph for every root, relation, and filter; the root receives no graph
entry and nothing is marked visited. -/
theorem C6_zero_depth_empty (root : String) (rel : PkgRel) (fl : String) :
    make_graph root rel 0 fl = [] ∧ (dfs rel fl 0 root ⟨[], []⟩).seen = [] :=
  ⟨rfl, rfl⟩

/-- C7: on the minimal index text, parse returns exactly the relation
mapping foo to bar and baz, bar to baz, and baz to nothing: the field
label, the architecture suffix, commas, and the parenthesized version
constraint are stripped and the remaining whitespace-separated tokens
form the dependency sets. -/
theorem C7_parse_minimal_index :
    load_packages minIndexText = Except.ok minRel := rfl

/-- C8: on the two-element cyclic relation, build at every depth d
terminates (the embedded traversal is a total function, its depth
budget strictly decreasing on every descent) and the returned graph
has at most d distinct keys. -/
theorem C8_cycle_bounded (d : Nat) :
    ((make_graph ("A") cycRel d ("")).map Prod.fst).Nodup ∧
    (make_graph ("A") cycRel d ("")).length ≤ d := by
  cases d with
  | zero => simp [make_graph_zero]
  | succ k =>
    rw [make_graph_empty_filter ("A") cycRel k]
    refine ⟨by simp, by simp⟩

/-- C9: in every graph returned by build, an edge target must have
finished its own expansion: every edge target is in the final visited
set of the traversal, and in particular no returned graph ever
contains a self-edge. -/
theorem C9_edges_visited_no_self_edge (root : String) (rel : PkgRel) (d : Nat)
    (fl : String) :
    (∀ p q, edgeMemB (make_graph root rel d fl) p q = true →
      listHas (dfs rel fl d root ⟨[], []⟩).seen q = true) ∧
    (∀ p, edgeMemB (make_graph root rel d fl) p p = false) := by
  obtain ⟨hinv, hnse⟩ := make_graph_state root rel d fl
  exact ⟨fun p q h => hinv.2 p q h, hnse⟩

/-- C9 witness at a concrete input with one edge. -/
theorem C9_witness :
    listHas (dfs wRel ("zz") 3 ("r") ⟨[], []⟩).seen ("a") = true ∧
    edgeMemB (make_graph ("r") wRel 3 ("zz")) ("r") ("r") = false :=
  ⟨(C9_edges_visited_no_self_edge ("r") wRel 3 ("zz")).1 ("r") ("a") (by decide),
   (C9_edges_visited_no_self_edge ("r") wRel 3 ("zz")).2 ("r")⟩

/-- C10: in every graph returned by build, every name appearing in an
edge set as a dependency target is also a key of the graph. -/
theorem C10_edge_targets_are_keys (root : String) (rel : PkgRel) (d : Nat)
    (fl : String) (p q : String)
    (h : edgeMemB (make_graph root rel d fl) p q = true) :
    dictHasKey (make_graph root rel d fl) q = true := by
  obtain ⟨hinv, _⟩ := make_graph_state root rel d fl
  exact hinv.1 q (hinv.2 p q h)

/-- C10 witness at a concrete input with one edge. -/
theorem C10_witness :
    dictHasKey (make_graph ("r") wRel 3 ("zz")) ("a") = true :=
  C10_edge_targets_are_keys ("r") wRel 3 ("zz") ("r") ("a") (by decide)
